import Mathlib

/- Shallow embedding of the memory-management primitives of src/lib.rs:
`FlatObjectPool` (flat arena with a bounded free list), `ObjectPool`
(container recycler), `DoubleBuffer` (front/back swap buffer), and
`DataPointSequence` (staged-commit append-only sequence).  Rust `Vec<T>`
is modelled as `List T`, `usize` as `Nat`, and fallible slicing as
`Option`. -/

/-- The domain record (lib.rs 7-12).  Its `f64` field is opaque to every
container operation (only default construction and cloning are used), so it
is modelled by an integer-valued placeholder. -/
structure DataPoint where
  id : Nat
  value : Int
  timestamp : String
deriving DecidableEq, Repr

/-- Mirrors the derived `Default` for `DataPoint` (zero id, zero value,
empty timestamp). -/
instance : Inhabited DataPoint := ⟨⟨0, 0, ""⟩⟩

/-- Flat object pool (lib.rs 75-80): one contiguous buffer plus a bounded
list of free `(begin, end)` index ranges. -/
structure FlatObjectPool (T : Type) where
  buffer : List T
  free_ranges : List (Nat × Nat)
  capacity : Nat
deriving DecidableEq, Repr

/-- `FlatObjectPool::new` (lib.rs 88-94): a default-filled buffer of
`buffer_size` slots and an empty free list. -/
def FlatObjectPool.new (T : Type) [Inhabited T] (buffer_size capacity : Nat) :
    FlatObjectPool T :=
  { buffer := List.replicate buffer_size default
    free_ranges := []
    capacity := capacity }

/-- The first-fit scan inside `acquire` (lib.rs 102-120): the first free
range of length at least `size` together with the free list with that range
removed (order preserved), or `none` when no range fits. -/
def find_fit (size : Nat) : List (Nat × Nat) → Option ((Nat × Nat) × List (Nat × Nat))
  | [] => none
  | r :: rest =>
    if size ≤ r.2 - r.1 then some (r, rest)
    else
      match find_fit size rest with
      | some (f, rest') => some (f, r :: rest')
      | none => none

/-- `FlatObjectPool::acquire` (lib.rs 100-127).  On a first-fit hit the
range is removed; a strict leftover suffix is pushed back only when the free
list is below capacity.  On a miss the buffer is extended by `size`
default slots and the new suffix is returned. -/
def FlatObjectPool.acquire [Inhabited T] (p : FlatObjectPool T) (size : Nat) :
    (Nat × Nat) × FlatObjectPool T :=
  match find_fit size p.free_ranges with
  | some (r, rest) =>
    let fr :=
      if size < r.2 - r.1 then
        if rest.length < p.capacity then rest ++ [(r.1 + size, r.2)] else rest
      else rest
    ((r.1, r.1 + size), { p with free_ranges := fr })
  | none =>
    let b := p.buffer.length
    ((b, b + size), { p with buffer := p.buffer ++ List.replicate size default })

/-- The clearing loop of `release` (lib.rs 138-140): `buffer[i] = default`
for each `i` in `[b, e)`. -/
def clear_range [Inhabited T] (buf : List T) (b e : Nat) : List T :=
  (List.range' b (e - b)).foldl (fun acc i => acc.set i default) buf

/-- `FlatObjectPool::release` (lib.rs 132-146): invalid ranges are ignored;
otherwise the range is cleared to defaults and appended to the free list
when below capacity. -/
def FlatObjectPool.release [Inhabited T] (p : FlatObjectPool T) (b e : Nat) :
    FlatObjectPool T :=
  if b ≥ e ∨ e > p.buffer.length then p
  else
    { p with
      buffer := clear_range p.buffer b e
      free_ranges :=
        if p.free_ranges.length < p.capacity then p.free_ranges ++ [(b, e)]
        else p.free_ranges }

/-- `FlatObjectPool::get` (lib.rs 149-151): bounds-checked element access. -/
def FlatObjectPool.get (p : FlatObjectPool T) (index : Nat) : Option T :=
  p.buffer[index]?

/-- `FlatObjectPool::set` (lib.rs 158-164): resize to `index + 1` with
defaults when `index` is out of bounds, then write in place. -/
def FlatObjectPool.set [Inhabited T] (p : FlatObjectPool T) (index : Nat) (value : T) :
    FlatObjectPool T :=
  let buf :=
    if p.buffer.length ≤ index then
      p.buffer ++ List.replicate (index + 1 - p.buffer.length) default
    else p.buffer
  { p with buffer := buf.set index value }

/-- `FlatObjectPool::get_slice` (lib.rs 167-169) models `&buffer[b..e]`;
Rust slice indexing panics when `b > e` or `e > len`, modelled as `none`. -/
def FlatObjectPool.get_slice (p : FlatObjectPool T) (b e : Nat) : Option (List T) :=
  if b ≤ e ∧ e ≤ p.buffer.length then some ((p.buffer.drop b).take (e - b)) else none

/-- `FlatObjectPool::available_count` (lib.rs 177-179). -/
def FlatObjectPool.available_count (p : FlatObjectPool T) : Nat :=
  p.free_ranges.length

/-- `FlatObjectPool::buffer_size` (lib.rs 182-184). -/
def FlatObjectPool.buffer_size (p : FlatObjectPool T) : Nat :=
  p.buffer.length

/-- Object pool of reusable vectors (lib.rs 211-215). -/
structure ObjectPool (T : Type) where
  available : List (List T)
  capacity : Nat
deriving DecidableEq, Repr

/-- `ObjectPool::new` (lib.rs 219-224). -/
def ObjectPool.new (T : Type) (capacity : Nat) : ObjectPool T :=
  { available := [], capacity := capacity }

/-- `ObjectPool::acquire` (lib.rs 230-232): `available.pop()` removes the
last stored vector; an empty pool yields a fresh empty vector. -/
def ObjectPool.acquire (q : ObjectPool T) : List T × ObjectPool T :=
  match q.available.getLast? with
  | some v => (v, { q with available := q.available.dropLast })
  | none => ([], q)

/-- `ObjectPool::release` (lib.rs 238-243): below capacity the vector is
cleared and pushed (so the stored value is the empty list); at capacity it
is dropped.  The retained heap capacity of the cleared vector is not
observable in this model. -/
def ObjectPool.release (q : ObjectPool T) (_vec : List T) : ObjectPool T :=
  if q.available.length < q.capacity then { q with available := q.available ++ [[]] }
  else q

/-- `ObjectPool::available_count` (lib.rs 246-248). -/
def ObjectPool.available_count (q : ObjectPool T) : Nat :=
  q.available.length

/-- Double buffer (lib.rs 287-292). -/
structure DoubleBuffer (T : Type) where
  front : List T
  back : List T
  pool : ObjectPool T
deriving DecidableEq, Repr

/-- `DoubleBuffer::new` (lib.rs 296-302). -/
def DoubleBuffer.new (T : Type) (pool_capacity : Nat) : DoubleBuffer T :=
  { front := [], back := [], pool := ObjectPool.new T pool_capacity }

/-- `DoubleBuffer::swap` (lib.rs 322-328): exchange front and back, release
the old front to the pool, acquire a replacement back. -/
def DoubleBuffer.swap (db : DoubleBuffer T) : DoubleBuffer T :=
  let pool1 := db.pool.release db.front
  let res := pool1.acquire
  { front := db.back, back := res.1, pool := res.2 }

/-- Pushing each element of `xs` in order onto the back buffer through
`back_mut` (lib.rs 310-312). -/
def DoubleBuffer.push_back_all (db : DoubleBuffer T) (xs : List T) : DoubleBuffer T :=
  { db with back := db.back ++ xs }

/-- `DataPointSequence` (lib.rs 382-388): a flat pool plus staged-commit
boundaries and a step counter. -/
structure DataPointSequence where
  pool : FlatObjectPool DataPoint
  current_end : Nat
  next_end : Nat
  step : Nat
deriving DecidableEq, Repr

/-- `DataPointSequence::new` (lib.rs 396-403). -/
def DataPointSequence.new (buffer_size pool_capacity : Nat) : DataPointSequence :=
  { pool := FlatObjectPool.new DataPoint buffer_size pool_capacity
    current_end := 0
    next_end := 0
    step := 0 }

/-- `DataPointSequence::add_point` (lib.rs 414-418): write at `next_end`
through the auto-growing `set`, then advance `next_end`. -/
def DataPointSequence.add_point (s : DataPointSequence) (point : DataPoint) :
    DataPointSequence :=
  { s with pool := s.pool.set s.next_end point, next_end := s.next_end + 1 }

/-- `DataPointSequence::add_points` (lib.rs 421-425): `add_point` once per
value, in iteration order. -/
def DataPointSequence.add_points (s : DataPointSequence) (points : List DataPoint) :
    DataPointSequence :=
  points.foldl DataPointSequence.add_point s

/-- `DataPointSequence::update` (lib.rs 431-434): publish pending additions
and advance the step counter. -/
def DataPointSequence.update (s : DataPointSequence) : DataPointSequence :=
  { s with current_end := s.next_end, step := s.step + 1 }

/-- `DataPointSequence::current` (lib.rs 440-446): the committed slice
`buffer[0..current_end]`; `none` models a slice-indexing panic. -/
def DataPointSequence.current (s : DataPointSequence) : Option (List DataPoint) :=
  if 0 < s.current_end then s.pool.get_slice 0 s.current_end else some []

/-- `DataPointSequence::len` (lib.rs 449-451). -/
def DataPointSequence.len (s : DataPointSequence) : Nat :=
  s.current_end

/-- `DataPointSequence::is_empty` (lib.rs 454-456). -/
def DataPointSequence.is_empty (s : DataPointSequence) : Bool :=
  s.current_end == 0

/-- `DataPointSequence::pending_count` (lib.rs 459-461). -/
def DataPointSequence.pending_count (s : DataPointSequence) : Nat :=
  s.next_end - s.current_end

/-- `DataPointSequence::buffer_size` (lib.rs 464-466). -/
def DataPointSequence.buffer_size (s : DataPointSequence) : Nat :=
  s.pool.buffer_size

/-- The clearing loop of `DataPointSequence::clear` (lib.rs 477-479):
`pool.set i default` for each `i` below `n`, in ascending order. -/
def set_defaults (p : FlatObjectPool DataPoint) : Nat → FlatObjectPool DataPoint
  | 0 => p
  | n + 1 => (set_defaults p n).set n default

/-- `DataPointSequence::clear` (lib.rs 471-480): reset all counters to zero
and overwrite every slot below the old `next_end` with the default value. -/
def DataPointSequence.clear (s : DataPointSequence) : DataPointSequence :=
  { pool := set_defaults s.pool s.next_end
    current_end := 0
    next_end := 0
    step := 0 }

/-- An acquire or release call on a `FlatObjectPool`: the call alphabet of
the arena disjointness property. -/
inductive ArenaCall where
  | acq : Nat → ArenaCall
  | rel : Nat → Nat → ArenaCall
deriving DecidableEq, Repr

/-- Ghost-instrumented semantics of an arbitrary acquire/release call
sequence: `acq` places the returned range on the loan list, `rel b e` hands
`(b, e)` to `release` and removes one matching loan when present. -/
def run_calls [Inhabited T] :
    List ArenaCall → FlatObjectPool T × List (Nat × Nat) →
      FlatObjectPool T × List (Nat × Nat)
  | [], st => st
  | ArenaCall.acq s :: ops, st =>
    run_calls ops ((st.1.acquire s).2, (st.1.acquire s).1 :: st.2)
  | ArenaCall.rel b e :: ops, st =>
    run_calls ops (st.1.release b e, st.2.erase (b, e))

/-- The same semantics restricted to proper use: each `rel b e` must release
a range currently on loan, otherwise the run is rejected. -/
def run_calls_wf [Inhabited T] :
    List ArenaCall → FlatObjectPool T × List (Nat × Nat) →
      Option (FlatObjectPool T × List (Nat × Nat))
  | [], st => some st
  | ArenaCall.acq s :: ops, st =>
    run_calls_wf ops ((st.1.acquire s).2, (st.1.acquire s).1 :: st.2)
  | ArenaCall.rel b e :: ops, st =>
    if (b, e) ∈ st.2 then run_calls_wf ops (st.1.release b e, st.2.erase (b, e))
    else none

/-- A call on a `FlatObjectPool` through its public mutating interface. -/
inductive PoolCall (T : Type) where
  | acqC : Nat → PoolCall T
  | relC : Nat → Nat → PoolCall T
  | setC : Nat → T → PoolCall T
deriving DecidableEq

/-- Run a sequence of `FlatObjectPool` calls, discarding returned ranges. -/
def run_pool [Inhabited T] : List (PoolCall T) → FlatObjectPool T → FlatObjectPool T
  | [], p => p
  | PoolCall.acqC s :: ops, p => run_pool ops (p.acquire s).2
  | PoolCall.relC b e :: ops, p => run_pool ops (p.release b e)
  | PoolCall.setC i v :: ops, p => run_pool ops (p.set i v)

/-- A call on an `ObjectPool` through its public mutating interface. -/
inductive RecycleCall (T : Type) where
  | acqR : RecycleCall T
  | relR : List T → RecycleCall T
deriving DecidableEq

/-- Run a sequence of `ObjectPool` calls, discarding returned vectors. -/
def run_recycle : List (RecycleCall T) → ObjectPool T → ObjectPool T
  | [], q => q
  | RecycleCall.acqR :: ops, q => run_recycle ops q.acquire.2
  | RecycleCall.relR v :: ops, q => run_recycle ops (q.release v)

/-- A call on a `DataPointSequence` through its public mutating interface. -/
inductive SeqCall where
  | addC : DataPoint → SeqCall
  | addManyC : List DataPoint → SeqCall
  | updateC : SeqCall
  | clearC : SeqCall
deriving DecidableEq

/-- Run a sequence of `DataPointSequence` calls. -/
def run_seq : List SeqCall → DataPointSequence → DataPointSequence
  | [], s => s
  | SeqCall.addC pt :: ops, s => run_seq ops (s.add_point pt)
  | SeqCall.addManyC pts :: ops, s => run_seq ops (s.add_points pts)
  | SeqCall.updateC :: ops, s => run_seq ops s.update
  | SeqCall.clearC :: ops, s => run_seq ops s.clear

/-- Two half-open index ranges overlap when some index lies in both. -/
def overlaps (a b : Nat × Nat) : Prop :=
  max a.1 b.1 < min a.2 b.2

instance (a b : Nat × Nat) : Decidable (overlaps a b) :=
  inferInstanceAs (Decidable (max a.1 b.1 < min a.2 b.2))

/-- Invariant tying a `FlatObjectPool` to its ghost loan list: every free or
on-loan range is well formed and within the buffer, and all of them are
pairwise non-overlapping. -/
def pool_inv (p : FlatObjectPool T) (loans : List (Nat × Nat)) : Prop :=
  (∀ r ∈ p.free_ranges ++ loans, r.1 ≤ r.2 ∧ r.2 ≤ p.buffer.length) ∧
  (p.free_ranges ++ loans).Pairwise (fun a b => ¬ overlaps a b)

/-- Reachable-state invariant of `DataPointSequence`. -/
def seq_inv (s : DataPointSequence) : Prop :=
  s.current_end ≤ s.next_end ∧ s.next_end ≤ s.pool.buffer.length

theorem overlaps_iff (a b : Nat × Nat) :
    overlaps a b ↔ a.1 < a.2 ∧ b.1 < b.2 ∧ a.1 < b.2 ∧ b.1 < a.2 := by
  unfold overlaps
  rw [lt_min_iff, max_lt_iff, max_lt_iff]
  tauto

theorem not_overlaps_symm {a b : Nat × Nat} (h : ¬ overlaps a b) : ¬ overlaps b a := by
  rw [overlaps_iff] at *
  tauto

theorem foldl_set_getElem? [Inhabited T] (is : List Nat) (buf : List T) (i : Nat) :
    (is.foldl (fun acc j => acc.set j default) buf)[i]? =
      if i ∈ is ∧ i < buf.length then some (default : T) else buf[i]? := by
  induction is generalizing buf with
  | nil => simp
  | cons j js ih =>
    simp only [List.foldl_cons]
    rw [ih]
    simp only [List.length_set, List.mem_cons, List.getElem?_set]
    by_cases hlen : i < buf.length
    · by_cases hmem : i ∈ js
      · simp [hmem, hlen]
      · by_cases hji : j = i
        · simp [hji, hmem, hlen]
        · have hij : ¬ i = j := fun h => hji h.symm
          simp [hmem, hlen, hji, hij]
    · have hnone : buf[i]? = none := by
        rw [List.getElem?_eq_none_iff]
        omega
      by_cases hji : j = i
      · simp [hji, hlen, hnone]
      · have hij : ¬ i = j := fun h => hji h.symm
        simp [hlen, hji, hij, hnone]

theorem foldl_set_length [Inhabited T] (is : List Nat) (buf : List T) :
    (is.foldl (fun acc j => acc.set j default) buf).length = buf.length := by
  induction is generalizing buf with
  | nil => rfl
  | cons j js ih => simp [ih]

theorem clear_range_length [Inhabited T] (buf : List T) (b e : Nat) :
    (clear_range buf b e).length = buf.length :=
  foldl_set_length _ _

theorem clear_range_getElem? [Inhabited T] (buf : List T) (b e i : Nat) :
    (clear_range buf b e)[i]? =
      if b ≤ i ∧ i < e ∧ i < buf.length then some (default : T) else buf[i]? := by
  unfold clear_range
  rw [foldl_set_getElem?]
  by_cases hmem : b ≤ i ∧ i < e
  · have hmem' : i ∈ List.range' b (e - b) := by
      rw [List.mem_range'_1]
      omega
    by_cases hlen : i < buf.length
    · rw [if_pos ⟨hmem', hlen⟩, if_pos ⟨hmem.1, hmem.2, hlen⟩]
    · rw [if_neg (fun h => hlen h.2), if_neg (fun h => hlen h.2.2)]
  · have hnotmem : i ∉ List.range' b (e - b) := by
      rw [List.mem_range'_1]
      omega
    have hcond : ¬ (b ≤ i ∧ i < e ∧ i < buf.length) := by omega
    rw [if_neg (fun h => hnotmem h.1), if_neg hcond]

/-- C6: releasing an invalid range (`begin >= end` or `end > buffer length`)
is a silent no-op returning the pool completely unchanged (buffer contents,
buffer length, and free list). -/
theorem release_invalid_noop [Inhabited T] (p : FlatObjectPool T) (b e : Nat)
    (h : b ≥ e ∨ e > p.buffer.length) : p.release b e = p := by
  unfold FlatObjectPool.release
  rw [if_pos h]

/-- Witness for `release_invalid_noop` at a concrete pool, for both an
inverted range and an out-of-bounds range. -/
theorem release_invalid_noop_witness :
    (FlatObjectPool.new Nat 5 2).release 3 3 = FlatObjectPool.new Nat 5 2 ∧
    (FlatObjectPool.new Nat 5 2).release 2 9 = FlatObjectPool.new Nat 5 2 :=
  ⟨release_invalid_noop (FlatObjectPool.new Nat 5 2) 3 3 (Or.inl (Nat.le_refl 3)),
   release_invalid_noop (FlatObjectPool.new Nat 5 2) 2 9 (Or.inr (by decide))⟩

/-- C5: `update` (the commit operation) sets `current_end` to `next_end`
and increments `step` by exactly one; on a reachable state
(`current_end ≤ next_end`) with zero pending additions it leaves `len`
unchanged. -/
theorem update_advances_step (s : DataPointSequence) :
    s.update.current_end = s.next_end ∧
    s.update.step = s.step + 1 ∧
    (s.current_end ≤ s.next_end → s.pending_count = 0 → s.update.len = s.len) := by
  refine ⟨rfl, rfl, fun h1 h2 => ?_⟩
  unfold DataPointSequence.pending_count at h2
  show s.next_end = s.current_end
  omega

/-- Witness for `update_advances_step` on a freshly constructed sequence
with zero pending additions. -/
theorem update_advances_step_witness :
    (DataPointSequence.new 5 2).update.step = (DataPointSequence.new 5 2).step + 1 ∧
    (DataPointSequence.new 5 2).update.len = (DataPointSequence.new 5 2).len := by
  have h := update_advances_step (DataPointSequence.new 5 2)
  exact ⟨h.2.1, h.2.2 (by decide) (by decide)⟩

/-- C7: `set` with an index beyond the buffer grows the buffer to
`index + 1`, fills the gap with defaults and writes the value; within the
buffer it overwrites in place without changing the length; other in-bounds
slots are untouched in both cases. -/
theorem set_growth_semantics [Inhabited T] (p : FlatObjectPool T) (index : Nat) (v : T) :
    (p.buffer.length ≤ index →
      (p.set index v).buffer_size = index + 1 ∧
      (∀ j, p.buffer.length ≤ j → j < index → (p.set index v).get j = some default)) ∧
    (index < p.buffer.length → (p.set index v).buffer_size = p.buffer_size) ∧
    (p.set index v).get index = some v ∧
    (∀ j, j ≠ index → j < p.buffer.length → (p.set index v).get j = p.get j) := by
  unfold FlatObjectPool.set FlatObjectPool.get FlatObjectPool.buffer_size
  by_cases hgrow : p.buffer.length ≤ index
  · simp only [if_pos hgrow]
    have hlen : (p.buffer ++ List.replicate (index + 1 - p.buffer.length) default).length
        = index + 1 := by
      simp
      omega
    refine ⟨fun _ => ⟨by simp [hlen], fun j hj1 hj2 => ?_⟩, fun h => absurd h (by omega),
      ?_, fun j hj1 hj2 => ?_⟩
    · rw [List.getElem?_set]
      rw [if_neg (by omega)]
      rw [List.getElem?_append_right hj1, List.getElem?_replicate]
      rw [if_pos (by omega)]
    · rw [List.getElem?_set]
      rw [if_pos rfl, if_pos (by omega)]
    · rw [List.getElem?_set]
      rw [if_neg (fun h => hj1 h.symm), List.getElem?_append_left hj2]
  · simp only [if_neg hgrow]
    refine ⟨fun h => absurd h hgrow, fun _ => by simp, ?_, fun j hj1 hj2 => ?_⟩
    · rw [List.getElem?_set]
      rw [if_pos rfl, if_pos (by omega)]
    · rw [List.getElem?_set]
      rw [if_neg (fun h => hj1 h.symm)]

/-- Witness for `set_growth_semantics`: an out-of-bounds write at index 4 on
a 2-slot buffer grows it to length 5, default-fills slot 3, and keeps
slot 0. -/
theorem set_growth_semantics_witness :
    ((FlatObjectPool.new Nat 2 1).set 4 9).buffer_size = 5 ∧
    ((FlatObjectPool.new Nat 2 1).set 4 9).get 3 = some 0 ∧
    ((FlatObjectPool.new Nat 2 1).set 4 9).get 4 = some 9 ∧
    ((FlatObjectPool.new Nat 2 1).set 4 9).get 0 = (FlatObjectPool.new Nat 2 1).get 0 := by
  have h := set_growth_semantics (FlatObjectPool.new Nat 2 1) 4 9
  exact ⟨(h.1 (by decide)).1, (h.1 (by decide)).2 3 (by decide) (by decide),
    h.2.2.1, h.2.2.2 0 (by decide) (by decide)⟩

/-- C2 counterexample: on a freshly constructed `FlatObjectPool::new(10, 3)`
the free list is empty, so `acquire(4)` extends the buffer and returns
`(10, 14)`, not `(0, 4)` as claimed. -/
theorem first_acquire_extends_buffer :
    ((FlatObjectPool.new Nat 10 3).acquire 4).1 = (10, 14) ∧
    ((FlatObjectPool.new Nat 10 3).acquire 4).1 ≠ (0, 4) := by
  decide

/-- C2 amended: when the free list is empty and the free-list capacity is
positive, acquiring size `e - b` immediately after releasing the valid range
`(b, e)` returns exactly `(b, e)` (first-fit identity on exact size match). -/
theorem reuse_exact_after_release [Inhabited T] (p : FlatObjectPool T) (b e : Nat)
    (hfr : p.free_ranges = []) (hcap : 0 < p.capacity)
    (hbe : b < e) (hlen : e ≤ p.buffer.length) :
    ((p.release b e).acquire (e - b)).1 = (b, e) := by
  unfold FlatObjectPool.release
  rw [if_neg (by omega)]
  have hfr2 : (if p.free_ranges.length < p.capacity
      then p.free_ranges ++ [(b, e)] else p.free_ranges) = [(b, e)] := by
    rw [hfr]
    simp [hcap]
  unfold FlatObjectPool.acquire
  rw [hfr2]
  unfold find_fit
  rw [if_pos (Nat.le_refl (e - b))]
  show (b, b + (e - b)) = (b, e)
  rw [Nat.add_sub_cancel' (Nat.le_of_lt hbe)]

/-- Witness for `reuse_exact_after_release`: on `FlatObjectPool::new(10, 3)`
the first `acquire(4)` yields `(10, 14)` by buffer extension; after
`release(10, 14)` a second `acquire(4)` returns `(10, 14)` again. -/
theorem reuse_exact_after_release_witness :
    (((((FlatObjectPool.new Nat 10 3).acquire 4).2).release 10 14).acquire (14 - 10)).1
      = (10, 14) :=
  reuse_exact_after_release ((FlatObjectPool.new Nat 10 3).acquire 4).2 10 14
    (by decide) (by decide) (by decide) (by decide)

/-- C3 counterexample: on a freshly constructed `FlatObjectPool` with buffer
size 10 the free list is empty, so `acquire(6)` returns `(10, 16)` by buffer
extension, not `(0, 6)` as claimed. -/
theorem acquire_six_extends_buffer :
    ((FlatObjectPool.new Nat 10 3).acquire 6).1 = (10, 16) ∧
    ((FlatObjectPool.new Nat 10 3).acquire 6).1 ≠ (0, 6) := by
  decide

/-- C3 amended: on `FlatObjectPool::new(10, 3)`, `acquire(6)` returns
`(10, 16)`; after `release(10, 16)`, `acquire(2)` returns `(10, 12)` and the
split leftover `(12, 16)` remains reusable: a subsequent `acquire(4)`
returns `(12, 16)`. -/
theorem split_reuse_scenario :
    ((FlatObjectPool.new Nat 10 3).acquire 6).1 = (10, 16) ∧
    (((((FlatObjectPool.new Nat 10 3).acquire 6).2).release 10 16).acquire 2).1
      = (10, 12) ∧
    ((((((FlatObjectPool.new Nat 10 3).acquire 6).2).release 10 16).acquire 2).2.acquire 4).1
      = (12, 16) := by
  decide

theorem get_lt_of_some (p : FlatObjectPool T) (i : Nat) (x : T)
    (h : p.get i = some x) : i < p.buffer.length := by
  unfold FlatObjectPool.get at h
  by_contra hc
  rw [List.getElem?_eq_none_iff.mpr (by omega)] at h
  exact Option.noConfusion h

theorem release_clears_slot [Inhabited T] (p : FlatObjectPool T) (b e i : Nat)
    (hbi : b ≤ i) (hie : i < e) (hlen : e ≤ p.buffer.length) :
    (p.release b e).get i = some default := by
  unfold FlatObjectPool.release
  rw [if_neg (by omega)]
  show (clear_range p.buffer b e)[i]? = some default
  rw [clear_range_getElem?]
  rw [if_pos ⟨hbi, hie, by omega⟩]

theorem acquire_preserves_get [Inhabited T] (p : FlatObjectPool T) (s i : Nat)
    (hlen : i < p.buffer.length) : (p.acquire s).2.get i = p.get i := by
  unfold FlatObjectPool.acquire FlatObjectPool.get
  cases hf : find_fit s p.free_ranges with
  | some pr =>
    obtain ⟨r, rest⟩ := pr
    simp only [hf]
  | none =>
    simp only [hf]
    exact List.getElem?_append_left hlen

theorem release_preserves_default [Inhabited T] (p : FlatObjectPool T) (b e i : Nat)
    (h : p.get i = some default) : (p.release b e).get i = some default := by
  unfold FlatObjectPool.release
  by_cases hg : b ≥ e ∨ e > p.buffer.length
  · rw [if_pos hg]
    exact h
  · rw [if_neg hg]
    show (clear_range p.buffer b e)[i]? = some default
    rw [clear_range_getElem?]
    by_cases hc : b ≤ i ∧ i < e ∧ i < p.buffer.length
    · rw [if_pos hc]
    · rw [if_neg hc]
      exact h

theorem set_preserves_get [Inhabited T] (p : FlatObjectPool T) (j : Nat) (v : T) (i : Nat)
    (hji : j ≠ i) (hlen : i < p.buffer.length) : (p.set j v).get i = p.get i := by
  show ((if p.buffer.length ≤ j then
      p.buffer ++ List.replicate (j + 1 - p.buffer.length) default
    else p.buffer).set j v)[i]? = p.buffer[i]?
  rw [List.getElem?_set, if_neg hji]
  by_cases hg : p.buffer.length ≤ j
  · rw [if_pos hg, List.getElem?_append_left hlen]
  · rw [if_neg hg]

theorem run_pool_preserves_default [Inhabited T] (ops : List (PoolCall T))
    (p : FlatObjectPool T) (i : Nat)
    (hops : ∀ j v, PoolCall.setC j v ∈ ops → j ≠ i)
    (h : p.get i = some default) : (run_pool ops p).get i = some default := by
  induction ops generalizing p with
  | nil => exact h
  | cons op ops ih =>
    cases op with
    | acqC s =>
      show (run_pool ops (p.acquire s).2).get i = some default
      refine ih _ (fun j v hm => hops j v (List.mem_cons_of_mem _ hm)) ?_
      rw [acquire_preserves_get p s i (get_lt_of_some p i default h)]
      exact h
    | relC b e =>
      show (run_pool ops (p.release b e)).get i = some default
      exact ih _ (fun j v hm => hops j v (List.mem_cons_of_mem _ hm))
        (release_preserves_default p b e i h)
    | setC j v =>
      show (run_pool ops (p.set j v)).get i = some default
      refine ih _ (fun j2 v2 hm => hops j2 v2 (List.mem_cons_of_mem _ hm)) ?_
      rw [set_preserves_get p j v i (hops j v (List.mem_cons_self _ _))
        (get_lt_of_some p i default h)]
      exact h

/-- C4: after `release(b, e)` on a valid range, every slot with index in
`[b, e)` reads as the element type's default value via `get`, and keeps
reading as the default under any further acquire/release/set calls that do
not write to that slot. -/
theorem release_clears_until_overwrite [Inhabited T] (p : FlatObjectPool T) (b e i : Nat)
    (ops : List (PoolCall T)) (hbi : b ≤ i) (hie : i < e) (hlen : e ≤ p.buffer.length)
    (hops : ∀ j v, PoolCall.setC j v ∈ ops → j ≠ i) :
    (p.release b e).get i = some default ∧
    (run_pool ops (p.release b e)).get i = some default := by
  have h0 := release_clears_slot p b e i hbi hie hlen
  exact ⟨h0, run_pool_preserves_default ops _ i hops h0⟩

/-- Witness for `release_clears_until_overwrite`: slot 2 of a 6-slot pool
reads default after `release(1, 4)` and stays default across a later write
to slot 0, an acquire, and another release. -/
theorem release_clears_until_overwrite_witness :
    ((FlatObjectPool.new Nat 6 2).release 1 4).get 2 = some 0 ∧
    (run_pool [PoolCall.setC 0 7, PoolCall.acqC 1, PoolCall.relC 0 1]
      ((FlatObjectPool.new Nat 6 2).release 1 4)).get 2 = some 0 :=
  release_clears_until_overwrite (FlatObjectPool.new Nat 6 2) 1 4 2
    [PoolCall.setC 0 7, PoolCall.acqC 1, PoolCall.relC 0 1]
    (by decide) (by decide) (by decide)
    (by
      intro j v hm
      simp only [List.mem_cons, List.not_mem_nil, or_false] at hm
      rcases hm with h1 | h2 | h3
      · cases h1
        omega
      · exact PoolCall.noConfusion h2
      · exact PoolCall.noConfusion h3)

/-- C8: pushing a sequence of values onto the back buffer of a reachable
`DoubleBuffer` (empty back buffer; pool holding only cleared vectors) and
then calling `swap` publishes exactly that sequence, in append order, as
the new front, and leaves a back buffer of length 0. -/
theorem swap_transfer_fidelity (db : DoubleBuffer T) (xs : List T)
    (hb : db.back = []) (hpool : ∀ v ∈ db.pool.available, v = []) :
    (db.push_back_all xs).swap.front = xs ∧
    (db.push_back_all xs).swap.back.length = 0 := by
  constructor
  · show db.back ++ xs = xs
    rw [hb, List.nil_append]
  · show ((db.pool.release db.front).acquire).1.length = 0
    unfold ObjectPool.release ObjectPool.acquire
    by_cases hcap : db.pool.available.length < db.pool.capacity
    · simp only [if_pos hcap, List.getLast?_concat]
      rfl
    · simp only [if_neg hcap]
      cases hl : db.pool.available.getLast? with
      | none => simp only [hl]; rfl
      | some v =>
        have hv : v = [] := by
          refine hpool v ?_
          obtain ⟨hne, hx⟩ := List.mem_getLast?_eq_getLast hl
          rw [hx]
          exact List.getLast_mem hne
        simp only [hl, hv]
        rfl

/-- Witness for `swap_transfer_fidelity` on a fresh `DoubleBuffer`. -/
theorem swap_transfer_fidelity_witness :
    ((DoubleBuffer.new Nat 4).push_back_all [3, 1, 2]).swap.front = [3, 1, 2] ∧
    ((DoubleBuffer.new Nat 4).push_back_all [3, 1, 2]).swap.back.length = 0 :=
  swap_transfer_fidelity (DoubleBuffer.new Nat 4) [3, 1, 2] (by decide)
    (by intro v hv; exact absurd hv (List.not_mem_nil v))

theorem find_fit_eq {size : Nat} :
    ∀ {fr : List (Nat × Nat)} {r : Nat × Nat} {rest : List (Nat × Nat)},
      find_fit size fr = some (r, rest) →
      ∃ l1 l2, fr = l1 ++ r :: l2 ∧ rest = l1 ++ l2 ∧ size ≤ r.2 - r.1 := by
  intro fr
  induction fr with
  | nil =>
    intro r rest h
    exact Option.noConfusion h
  | cons hd tl ih =>
    intro r rest h
    unfold find_fit at h
    by_cases hfit : size ≤ hd.2 - hd.1
    · rw [if_pos hfit] at h
      injection h with h2
      injection h2 with h3 h4
      subst h3
      subst h4
      exact ⟨[], tl, rfl, rfl, hfit⟩
    · rw [if_neg hfit] at h
      cases htl : find_fit size tl with
      | none =>
        rw [htl] at h
        exact Option.noConfusion h
      | some pr =>
        obtain ⟨f, rest'⟩ := pr
        rw [htl] at h
        injection h with h2
        injection h2 with h3 h4
        subst h3
        subst h4
        obtain ⟨l1, l2, he1, he2, hsz⟩ := ih htl
        refine ⟨hd :: l1, l2, ?_, ?_, hsz⟩
        · rw [he1]
          rfl
        · rw [he2]
          rfl

theorem acquire_capacity_eq [Inhabited T] (p : FlatObjectPool T) (s : Nat) :
    (p.acquire s).2.capacity = p.capacity := by
  unfold FlatObjectPool.acquire
  cases hf : find_fit s p.free_ranges with
  | none => rfl
  | some pr =>
    obtain ⟨r, rest⟩ := pr
    rfl

theorem release_capacity_eq [Inhabited T] (p : FlatObjectPool T) (b e : Nat) :
    (p.release b e).capacity = p.capacity := by
  unfold FlatObjectPool.release
  split <;> rfl

theorem acquire_free_len_le [Inhabited T] (p : FlatObjectPool T) (s : Nat)
    (h : p.free_ranges.length ≤ p.capacity) :
    (p.acquire s).2.free_ranges.length ≤ p.capacity := by
  unfold FlatObjectPool.acquire
  cases hf : find_fit s p.free_ranges with
  | none => exact h
  | some pr =>
    obtain ⟨r, rest⟩ := pr
    obtain ⟨l1, l2, he1, he2, hsz⟩ := find_fit_eq hf
    have hrest : rest.length + 1 = p.free_ranges.length := by
      rw [he1, he2]
      simp
      omega
    show (if s < r.2 - r.1 then
        if rest.length < p.capacity then rest ++ [(r.1 + s, r.2)] else rest
      else rest).length ≤ p.capacity
    by_cases h1 : s < r.2 - r.1
    · by_cases h2 : rest.length < p.capacity
      · rw [if_pos h1, if_pos h2]
        simp
        omega
      · rw [if_pos h1, if_neg h2]
        omega
    · rw [if_neg h1]
      omega

theorem release_free_len_le [Inhabited T] (p : FlatObjectPool T) (b e : Nat)
    (h : p.free_ranges.length ≤ p.capacity) :
    (p.release b e).free_ranges.length ≤ p.capacity := by
  unfold FlatObjectPool.release
  by_cases hg : b ≥ e ∨ e > p.buffer.length
  · rw [if_pos hg]
    exact h
  · rw [if_neg hg]
    show (if p.free_ranges.length < p.capacity
        then p.free_ranges ++ [(b, e)] else p.free_ranges).length ≤ p.capacity
    by_cases hc : p.free_ranges.length < p.capacity
    · rw [if_pos hc]
      simp
      omega
    · rw [if_neg hc]
      exact h

theorem run_pool_free_bound [Inhabited T] (ops : List (PoolCall T)) (p : FlatObjectPool T)
    (h : p.free_ranges.length ≤ p.capacity) :
    (run_pool ops p).capacity = p.capacity ∧
    (run_pool ops p).free_ranges.length ≤ p.capacity := by
  induction ops generalizing p with
  | nil => exact ⟨rfl, h⟩
  | cons op ops ih =>
    cases op with
    | acqC s =>
      have hstep := ih (p.acquire s).2 (by
        rw [acquire_capacity_eq]
        exact acquire_free_len_le p s h)
      rw [acquire_capacity_eq] at hstep
      exact hstep
    | relC b e =>
      have hstep := ih (p.release b e) (by
        rw [release_capacity_eq]
        exact release_free_len_le p b e h)
      rw [release_capacity_eq] at hstep
      exact hstep
    | setC j v =>
      exact ih (p.set j v) h

theorem recycle_release_avail_le (q : ObjectPool T) (v : List T)
    (h : q.available.length ≤ q.capacity) :
    (q.release v).available.length ≤ q.capacity := by
  unfold ObjectPool.release
  by_cases hc : q.available.length < q.capacity
  · rw [if_pos hc]
    simp
    omega
  · rw [if_neg hc]
    exact h

theorem recycle_release_capacity_eq (q : ObjectPool T) (v : List T) :
    (q.release v).capacity = q.capacity := by
  unfold ObjectPool.release
  split <;> rfl

theorem recycle_acquire_avail_le (q : ObjectPool T)
    (h : q.available.length ≤ q.capacity) :
    q.acquire.2.available.length ≤ q.capacity := by
  unfold ObjectPool.acquire
  cases hl : q.available.getLast? with
  | none => exact h
  | some v =>
    show q.available.dropLast.length ≤ q.capacity
    rw [List.length_dropLast]
    omega

theorem recycle_acquire_capacity_eq (q : ObjectPool T) :
    q.acquire.2.capacity = q.capacity := by
  unfold ObjectPool.acquire
  cases hl : q.available.getLast? with
  | none => rfl
  | some v => rfl

theorem run_recycle_avail_bound (ops : List (RecycleCall T)) (q : ObjectPool T)
    (h : q.available.length ≤ q.capacity) :
    (run_recycle ops q).capacity = q.capacity ∧
    (run_recycle ops q).available.length ≤ q.capacity := by
  induction ops generalizing q with
  | nil => exact ⟨rfl, h⟩
  | cons op ops ih =>
    cases op with
    | acqR =>
      have hstep := ih q.acquire.2 (by
        rw [recycle_acquire_capacity_eq]
        exact recycle_acquire_avail_le q h)
      rw [recycle_acquire_capacity_eq] at hstep
      exact hstep
    | relR v =>
      have hstep := ih (q.release v) (by
        rw [recycle_release_capacity_eq]
        exact recycle_release_avail_le q v h)
      rw [recycle_release_capacity_eq] at hstep
      exact hstep

/-- C9: after any call sequence from construction, `available_count` of a
`FlatObjectPool` (free-range count) and of an `ObjectPool` (retained-vector
count) never exceeds the configured capacity; with capacity zero neither
pool ever retains anything, every release leaves the retained collection
unchanged (drops its argument), and an acquire on an empty free list /
empty pool allocates fresh storage instead of reusing. -/
theorem pool_capacity_bound (T : Type) [Inhabited T] :
    (∀ (ops : List (PoolCall T)) (bs cap : Nat),
      (run_pool ops (FlatObjectPool.new T bs cap)).available_count ≤ cap) ∧
    (∀ (ops : List (RecycleCall T)) (cap : Nat),
      (run_recycle ops (ObjectPool.new T cap)).available_count ≤ cap) ∧
    (∀ (ops : List (PoolCall T)) (bs : Nat),
      (run_pool ops (FlatObjectPool.new T bs 0)).available_count = 0) ∧
    (∀ ops : List (RecycleCall T),
      (run_recycle ops (ObjectPool.new T 0)).available_count = 0) ∧
    (∀ (q : ObjectPool T) (v : List T), q.capacity = 0 → q.release v = q) ∧
    (∀ q : ObjectPool T, q.available = [] → q.acquire = ([], q)) ∧
    (∀ (p : FlatObjectPool T) (b e : Nat), p.capacity = 0 →
      (p.release b e).free_ranges = p.free_ranges) ∧
    (∀ (p : FlatObjectPool T) (s : Nat), p.free_ranges = [] →
      (p.acquire s).1 = (p.buffer.length, p.buffer.length + s)) := by
  have hflat : ∀ (ops : List (PoolCall T)) (bs cap : Nat),
      (run_pool ops (FlatObjectPool.new T bs cap)).available_count ≤ cap :=
    fun ops bs cap => (run_pool_free_bound ops (FlatObjectPool.new T bs cap)
      (Nat.zero_le cap)).2
  have hrec : ∀ (ops : List (RecycleCall T)) (cap : Nat),
      (run_recycle ops (ObjectPool.new T cap)).available_count ≤ cap :=
    fun ops cap => (run_recycle_avail_bound ops (ObjectPool.new T cap)
      (Nat.zero_le cap)).2
  refine ⟨hflat, hrec, fun ops bs => Nat.le_zero.mp (hflat ops bs 0),
    fun ops => Nat.le_zero.mp (hrec ops 0), ?_, ?_, ?_, ?_⟩
  · intro q v hcap
    unfold ObjectPool.release
    rw [if_neg (by omega)]
  · intro q hav
    unfold ObjectPool.acquire
    rw [hav]
    rfl
  · intro p b e hcap
    unfold FlatObjectPool.release
    by_cases hg : b ≥ e ∨ e > p.buffer.length
    · rw [if_pos hg]
    · rw [if_neg hg]
      show (if p.free_ranges.length < p.capacity
          then p.free_ranges ++ [(b, e)] else p.free_ranges) = p.free_ranges
      rw [if_neg (by omega)]
  · intro p s hfr
    unfold FlatObjectPool.acquire
    rw [hfr]
    rfl

/-- Witness for `pool_capacity_bound` at concrete call sequences that press
on both capacities and exercise the zero-capacity branches. -/
theorem pool_capacity_bound_witness :
    (run_pool [PoolCall.acqC 2, PoolCall.relC 0 2, PoolCall.acqC 1, PoolCall.relC 1 2]
      (FlatObjectPool.new Nat 4 1)).available_count ≤ 1 ∧
    (run_recycle [RecycleCall.relR [5], RecycleCall.relR [6], RecycleCall.relR [7]]
      (ObjectPool.new Nat 2)).available_count ≤ 2 ∧
    (run_recycle [RecycleCall.relR [5], RecycleCall.relR [6]]
      (ObjectPool.new Nat 0)).available_count = 0 ∧
    (ObjectPool.new Nat 0).release [3] = ObjectPool.new Nat 0 ∧
    ((FlatObjectPool.new Nat 4 0).release 0 2).free_ranges =
      (FlatObjectPool.new Nat 4 0).free_ranges ∧
    ((FlatObjectPool.new Nat 4 0).acquire 3).1 = (4, 7) := by
  have h := pool_capacity_bound Nat
  refine ⟨h.1 _ 4 1, h.2.1 _ 2, h.2.2.2.1 _, h.2.2.2.2.1 _ [3] rfl,
    h.2.2.2.2.2.2.1 _ 0 2 rfl, ?_⟩
  have h8 := h.2.2.2.2.2.2.2 (FlatObjectPool.new Nat 4 0) 3 rfl
  rw [h8]
  decide

theorem set_buffer_length [Inhabited T] (p : FlatObjectPool T) (i : Nat) (v : T) :
    (p.set i v).buffer.length = max p.buffer.length (i + 1) := by
  show ((if p.buffer.length ≤ i then
      p.buffer ++ List.replicate (i + 1 - p.buffer.length) default
    else p.buffer).set i v).length = max p.buffer.length (i + 1)
  rw [List.length_set]
  by_cases h : p.buffer.length ≤ i
  · rw [if_pos h]
    simp
    omega
  · rw [if_neg h]
    omega

theorem seq_inv_add_point (s : DataPointSequence) (pt : DataPoint)
    (h : seq_inv s) : seq_inv (s.add_point pt) := by
  obtain ⟨h1, h2⟩ := h
  constructor
  · show s.current_end ≤ s.next_end + 1
    omega
  · show s.next_end + 1 ≤ (s.pool.set s.next_end pt).buffer.length
    rw [set_buffer_length]
    omega

theorem seq_inv_add_points (s : DataPointSequence) (pts : List DataPoint)
    (h : seq_inv s) : seq_inv (s.add_points pts) := by
  induction pts generalizing s with
  | nil => exact h
  | cons pt pts ih =>
    show seq_inv (DataPointSequence.add_points (s.add_point pt) pts)
    exact ih _ (seq_inv_add_point s pt h)

theorem seq_inv_update (s : DataPointSequence) (h : seq_inv s) : seq_inv s.update :=
  ⟨Nat.le_refl _, h.2⟩

theorem seq_inv_clear (s : DataPointSequence) : seq_inv s.clear :=
  ⟨Nat.le_refl 0, Nat.zero_le _⟩

theorem run_seq_inv (ops : List SeqCall) (s : DataPointSequence)
    (h : seq_inv s) : seq_inv (run_seq ops s) := by
  induction ops generalizing s with
  | nil => exact h
  | cons op ops ih =>
    cases op with
    | addC pt => exact ih _ (seq_inv_add_point s pt h)
    | addManyC pts => exact ih _ (seq_inv_add_points s pts h)
    | updateC => exact ih _ (seq_inv_update s h)
    | clearC => exact ih _ (seq_inv_clear s)

theorem seq_inv_current_isSome (s : DataPointSequence) (h : seq_inv s) :
    s.current.isSome = true := by
  unfold DataPointSequence.current
  by_cases hc : 0 < s.current_end
  · rw [if_pos hc]
    unfold FlatObjectPool.get_slice
    rw [if_pos ⟨Nat.zero_le _, Nat.le_trans h.1 h.2⟩]
    rfl
  · rw [if_neg hc]
    rfl

/-- C10: every state of a `DataPointSequence` reachable from construction
through `add_point`, `add_points`, `update` and `clear` satisfies
`current_end ≤ next_end ≤ buffer_size()`, so the slice `buffer[0..current_end]`
taken inside `current()` is always in bounds and `current()` never fails. -/
theorem sequence_invariant_current_safe (ops : List SeqCall) (bs pc : Nat) :
    (run_seq ops (DataPointSequence.new bs pc)).current_end ≤
      (run_seq ops (DataPointSequence.new bs pc)).next_end ∧
    (run_seq ops (DataPointSequence.new bs pc)).next_end ≤
      (run_seq ops (DataPointSequence.new bs pc)).buffer_size ∧
    (run_seq ops (DataPointSequence.new bs pc)).current.isSome = true := by
  have h := run_seq_inv ops (DataPointSequence.new bs pc)
    ⟨Nat.le_refl 0, Nat.zero_le _⟩
  exact ⟨h.1, h.2, seq_inv_current_isSome _ h⟩

/-- C1 counterexample: the claim quantifies over every acquire/release call
sequence, but releasing ranges that were never acquired (caller misuse the
structure does not guard against) seeds the free list with overlapping
ranges, after which two overlapping ranges are simultaneously on loan:
after `release(0,2); release(1,3); acquire(2); acquire(2)` on
`FlatObjectPool::new(10,3)` the loans are `(1,3)` and `(0,2)`, which
overlap at index 1. -/
theorem loan_overlap_counterexample :
    ¬ List.Pairwise (fun a b => ¬ overlaps a b)
      (run_calls [ArenaCall.rel 0 2, ArenaCall.rel 1 3, ArenaCall.acq 2, ArenaCall.acq 2]
        ((FlatObjectPool.new Nat 10 3 : FlatObjectPool Nat), [])).2 := by
  decide

theorem overlaps_mk_iff (b1 e1 b2 e2 : Nat) :
    overlaps (b1, e1) (b2, e2) ↔ b1 < e1 ∧ b2 < e2 ∧ b1 < e2 ∧ b2 < e1 :=
  overlaps_iff (b1, e1) (b2, e2)

theorem not_overlaps_split (b m e : Nat) : ¬ overlaps (b, m) (m, e) := by
  rw [overlaps_mk_iff]
  omega

theorem not_overlaps_of_le (b e x1 x2 : Nat) (h : x2 ≤ b) :
    ¬ overlaps (b, e) (x1, x2) := by
  rw [overlaps_mk_iff]
  omega

theorem not_overlaps_of_subrange (bo eo bi ei x1 x2 : Nat) (hb : bo ≤ bi) (he : ei ≤ eo)
    (h : ¬ overlaps (bo, eo) (x1, x2)) : ¬ overlaps (bi, ei) (x1, x2) := by
  rw [overlaps_mk_iff] at h ⊢
  omega

theorem acquire_found_eq [Inhabited T] (p : FlatObjectPool T) (s : Nat) (r : Nat × Nat)
    (rest : List (Nat × Nat)) (hf : find_fit s p.free_ranges = some (r, rest)) :
    p.acquire s = ((r.1, r.1 + s),
      { p with free_ranges :=
          if s < r.2 - r.1 then
            if rest.length < p.capacity then rest ++ [(r.1 + s, r.2)] else rest
          else rest }) := by
  unfold FlatObjectPool.acquire
  simp only [hf]

theorem acquire_none_eq [Inhabited T] (p : FlatObjectPool T) (s : Nat)
    (hf : find_fit s p.free_ranges = none) :
    p.acquire s = ((p.buffer.length, p.buffer.length + s),
      { p with buffer := p.buffer ++ List.replicate s default }) := by
  unfold FlatObjectPool.acquire
  simp only [hf]

theorem pool_inv_acquire [Inhabited T] (p : FlatObjectPool T) (loans : List (Nat × Nat))
    (s : Nat) (h : pool_inv p loans) :
    pool_inv (p.acquire s).2 ((p.acquire s).1 :: loans) := by
  obtain ⟨hbnd, hpw⟩ := h
  cases hf : find_fit s p.free_ranges with
  | none =>
    rw [acquire_none_eq p s hf]
    dsimp only
    constructor
    · intro x hx
      rw [List.length_append, List.length_replicate]
      rcases List.mem_append.mp hx with hx1 | hx2
      · have := hbnd x (List.mem_append.mpr (Or.inl hx1))
        omega
      · rcases List.mem_cons.mp hx2 with hx3 | hx4
        · subst hx3
          dsimp only
          omega
        · have := hbnd x (List.mem_append.mpr (Or.inr hx4))
          omega
    · rw [List.pairwise_middle (fun h2 => not_overlaps_symm h2), List.pairwise_cons]
      refine ⟨fun x hx => ?_, hpw⟩
      obtain ⟨x1, x2⟩ := x
      exact not_overlaps_of_le p.buffer.length (p.buffer.length + s) x1 x2
        (hbnd (x1, x2) hx).2
  | some pr =>
    obtain ⟨r, rest⟩ := pr
    obtain ⟨l1, l2, he1, he2, hsz⟩ := find_fit_eq hf
    rw [acquire_found_eq p s r rest hf]
    dsimp only
    have hrmem : r ∈ p.free_ranges := by
      rw [he1]
      exact List.mem_append.mpr (Or.inr (List.mem_cons_self r l2))
    obtain ⟨hr1, hr2⟩ := hbnd r (List.mem_append.mpr (Or.inl hrmem))
    have hbs : r.1 + s ≤ r.2 := by omega
    rw [he1] at hpw
    rw [List.append_assoc, List.cons_append] at hpw
    rw [List.pairwise_middle (fun h2 => not_overlaps_symm h2)] at hpw
    rw [List.pairwise_cons] at hpw
    obtain ⟨hrall, hrest⟩ := hpw
    have hall2 : ∀ x ∈ rest ++ loans, ¬ overlaps r x := by
      intro x hx
      apply hrall
      rw [he2, List.append_assoc] at hx
      exact hx
    have hrest2 : List.Pairwise (fun a b => ¬ overlaps a b) (rest ++ loans) := by
      rw [he2, List.append_assoc]
      exact hrest
    have hbnd2 : ∀ x ∈ rest ++ loans, x.1 ≤ x.2 ∧ x.2 ≤ p.buffer.length := by
      intro x hx
      rcases List.mem_append.mp hx with hx1 | hx2
      · refine hbnd x (List.mem_append.mpr (Or.inl ?_))
        rw [he2] at hx1
        rw [he1]
        rcases List.mem_append.mp hx1 with hy1 | hy2
        · exact List.mem_append.mpr (Or.inl hy1)
        · exact List.mem_append.mpr (Or.inr (List.mem_cons_of_mem r hy2))
      · exact hbnd x (List.mem_append.mpr (Or.inr hx2))
    have hPWmid : List.Pairwise (fun a b => ¬ overlaps a b)
        (rest ++ (r.1, r.1 + s) :: loans) := by
      rw [List.pairwise_middle (fun h2 => not_overlaps_symm h2), List.pairwise_cons]
      refine ⟨fun x hx => ?_, hrest2⟩
      obtain ⟨x1, x2⟩ := x
      exact not_overlaps_of_subrange r.1 r.2 r.1 (r.1 + s) x1 x2
        (Nat.le_refl r.1) hbs (hall2 (x1, x2) hx)
    have hPWfull : List.Pairwise (fun a b => ¬ overlaps a b)
        ((rest ++ [(r.1 + s, r.2)]) ++ (r.1, r.1 + s) :: loans) := by
      rw [List.append_assoc, List.singleton_append]
      rw [List.pairwise_middle (fun h2 => not_overlaps_symm h2), List.pairwise_cons]
      refine ⟨fun x hx => ?_, hPWmid⟩
      rcases List.mem_append.mp hx with hx1 | hx2
      · obtain ⟨x1, x2⟩ := x
        exact not_overlaps_of_subrange r.1 r.2 (r.1 + s) r.2 x1 x2
          (Nat.le_add_right r.1 s) (Nat.le_refl r.2)
          (hall2 (x1, x2) (List.mem_append.mpr (Or.inl hx1)))
      · rcases List.mem_cons.mp hx2 with hx3 | hx4
        · subst hx3
          exact not_overlaps_symm (not_overlaps_split r.1 (r.1 + s) r.2)
        · obtain ⟨x1, x2⟩ := x
          exact not_overlaps_of_subrange r.1 r.2 (r.1 + s) r.2 x1 x2
            (Nat.le_add_right r.1 s) (Nat.le_refl r.2)
            (hall2 (x1, x2) (List.mem_append.mpr (Or.inr hx4)))
    constructor
    · intro x hx
      have hx' : x ∈ (rest ++ [(r.1 + s, r.2)]) ++ (r.1, r.1 + s) :: loans := by
        rcases List.mem_append.mp hx with hx1 | hx2
        · refine List.mem_append.mpr (Or.inl ?_)
          by_cases h1 : s < r.2 - r.1
          · rw [if_pos h1] at hx1
            by_cases h2 : rest.length < p.capacity
            · rw [if_pos h2] at hx1
              exact hx1
            · rw [if_neg h2] at hx1
              exact List.mem_append.mpr (Or.inl hx1)
          · rw [if_neg h1] at hx1
            exact List.mem_append.mpr (Or.inl hx1)
        · exact List.mem_append.mpr (Or.inr hx2)
      rcases List.mem_append.mp hx' with hy1 | hy2
      · rcases List.mem_append.mp hy1 with hz1 | hz2
        · exact hbnd2 x (List.mem_append.mpr (Or.inl hz1))
        · rcases List.mem_cons.mp hz2 with hz3 | hz4
          · subst hz3
            exact ⟨hbs, hr2⟩
          · exact absurd hz4 (List.not_mem_nil x)
      · rcases List.mem_cons.mp hy2 with hy3 | hy4
        · subst hy3
          refine ⟨Nat.le_add_right r.1 s, ?_⟩
          show r.1 + s ≤ p.buffer.length
          omega
        · exact hbnd2 x (List.mem_append.mpr (Or.inr hy4))
    · by_cases h1 : s < r.2 - r.1
      · by_cases h2 : rest.length < p.capacity
        · rw [if_pos h1, if_pos h2]
          exact hPWfull
        · rw [if_pos h1, if_neg h2]
          exact hPWmid
      · rw [if_neg h1]
        exact hPWmid

theorem pool_inv_release [Inhabited T] (p : FlatObjectPool T) (loans : List (Nat × Nat))
    (b e : Nat) (hmem : (b, e) ∈ loans) (h : pool_inv p loans) :
    pool_inv (p.release b e) (loans.erase (b, e)) := by
  obtain ⟨hbnd, hpw⟩ := h
  obtain ⟨m1, m2, hnm, hle, hler⟩ := List.exists_erase_eq hmem
  rw [hler]
  rw [hle] at hpw
  rw [← List.append_assoc] at hpw
  rw [List.pairwise_middle (fun h2 => not_overlaps_symm h2)] at hpw
  rw [List.pairwise_cons] at hpw
  obtain ⟨hall, hrest⟩ := hpw
  have hrest2 : List.Pairwise (fun a b => ¬ overlaps a b)
      (p.free_ranges ++ (m1 ++ m2)) := by
    rw [← List.append_assoc]
    exact hrest
  have hbnd2 : ∀ x ∈ p.free_ranges ++ (m1 ++ m2), x.1 ≤ x.2 ∧ x.2 ≤ p.buffer.length := by
    intro x hx
    apply hbnd
    rcases List.mem_append.mp hx with hx1 | hx2
    · exact List.mem_append.mpr (Or.inl hx1)
    · refine List.mem_append.mpr (Or.inr ?_)
      rw [hle]
      rcases List.mem_append.mp hx2 with hy1 | hy2
      · exact List.mem_append.mpr (Or.inl hy1)
      · exact List.mem_append.mpr (Or.inr (List.mem_cons_of_mem _ hy2))
  unfold FlatObjectPool.release
  by_cases hg : b ≥ e ∨ e > p.buffer.length
  · rw [if_pos hg]
    exact ⟨hbnd2, hrest2⟩
  · rw [if_neg hg]
    constructor
    · intro x hx
      show x.1 ≤ x.2 ∧ x.2 ≤ (clear_range p.buffer b e).length
      rw [clear_range_length]
      rcases List.mem_append.mp hx with hx1 | hx2
      · by_cases hc : p.free_ranges.length < p.capacity
        · rw [if_pos hc] at hx1
          rcases List.mem_append.mp hx1 with hz1 | hz2
          · exact hbnd2 x (List.mem_append.mpr (Or.inl hz1))
          · rcases List.mem_cons.mp hz2 with hz3 | hz4
            · subst hz3
              exact hbnd (b, e) (List.mem_append.mpr (Or.inr hmem))
            · exact absurd hz4 (List.not_mem_nil x)
        · rw [if_neg hc] at hx1
          exact hbnd2 x (List.mem_append.mpr (Or.inl hx1))
      · exact hbnd2 x (List.mem_append.mpr (Or.inr hx2))
    · by_cases hc : p.free_ranges.length < p.capacity
      · rw [if_pos hc]
        rw [List.append_assoc, List.singleton_append]
        rw [List.pairwise_middle (fun h2 => not_overlaps_symm h2), List.pairwise_cons]
        refine ⟨fun x hx => hall x ?_, hrest2⟩
        rw [← List.append_assoc] at hx
        exact hx
      · rw [if_neg hc]
        exact hrest2

theorem run_calls_wf_inv [Inhabited T] :
    ∀ (ops : List ArenaCall) (st st' : FlatObjectPool T × List (Nat × Nat)),
      pool_inv st.1 st.2 → run_calls_wf ops st = some st' → pool_inv st'.1 st'.2 := by
  intro ops
  induction ops with
  | nil =>
    intro st st' h hrun
    injection hrun with h2
    rw [← h2]
    exact h
  | cons op ops ih =>
    intro st st' h hrun
    cases op with
    | acq s =>
      exact ih _ st' (pool_inv_acquire st.1 st.2 s h) hrun
    | rel b e =>
      by_cases hm : (b, e) ∈ st.2
      · have hrun' : run_calls_wf ops (st.1.release b e, st.2.erase (b, e)) = some st' := by
          have heq : run_calls_wf (ArenaCall.rel b e :: ops) st =
              if (b, e) ∈ st.2 then
                run_calls_wf ops (st.1.release b e, st.2.erase (b, e))
              else none := rfl
          rw [heq, if_pos hm] at hrun
          exact hrun
        exact ih _ st' (pool_inv_release st.1 st.2 b e hm h) hrun'
      · exfalso
        have heq : run_calls_wf (ArenaCall.rel b e :: ops) st =
            if (b, e) ∈ st.2 then
              run_calls_wf ops (st.1.release b e, st.2.erase (b, e))
            else none := rfl
        rw [heq, if_neg hm] at hrun
        exact Option.noConfusion hrun

theorem pool_inv_new (T : Type) [Inhabited T] (bs cap : Nat) :
    pool_inv (FlatObjectPool.new T bs cap) ([] : List (Nat × Nat)) := by
  constructor
  · intro r hr
    exact absurd hr (List.not_mem_nil r)
  · exact List.Pairwise.nil

/-- C1 amended: for every sequence of acquire/release calls in which each
release hands back a range currently on loan (as returned by some acquire
and not yet released), no two ranges simultaneously on loan overlap. -/
theorem loans_pairwise_disjoint {T : Type} [Inhabited T] (ops : List ArenaCall)
    (bs cap : Nat) (p : FlatObjectPool T) (loans : List (Nat × Nat))
    (h : run_calls_wf ops (FlatObjectPool.new T bs cap, []) = some (p, loans)) :
    loans.Pairwise (fun a b => ¬ overlaps a b) := by
  have hinv := run_calls_wf_inv ops (FlatObjectPool.new T bs cap, []) (p, loans)
    (pool_inv_new T bs cap) h
  exact (List.pairwise_append.mp hinv.2).2.1

/-- Witness for `loans_pairwise_disjoint`: a proper trace of three acquires
and one loan-returning release on `FlatObjectPool::new(4, 2)`. -/
theorem loans_pairwise_disjoint_witness :
    List.Pairwise (fun a b => ¬ overlaps a b)
      [((9 : Nat), (10 : Nat)), (4, 6), (6, 9)] :=
  loans_pairwise_disjoint
    [ArenaCall.acq 2, ArenaCall.acq 3, ArenaCall.rel 4 6, ArenaCall.acq 2,
      ArenaCall.acq 1]
    4 2
    ⟨List.replicate 10 0, [], 2⟩
    [(9, 10), (4, 6), (6, 9)]
    (by decide)
